import Mathlib

/-!
Verification of the media-handling subsystem of the BusinessServicePortal
repository: the storage key construction and deletion logic of
src/lib/supabase-storage.ts, the video-URL classifier of
src/lib/video-utils.ts, the upload size gate of the FileUpload component,
and the gallery deletion logic of the MediaManager component.

Strings are embedded as Lean `String`/`List Char`; JavaScript string
builtins used by the code (trim, split, includes, number rendering,
decodeURIComponent) are given explicit executable models below.
-/

namespace Portal

/-- Model of JavaScript number-to-decimal-string rendering for the
nonnegative integers produced by Date.now(): auxiliary recursion on a
fuel bound (the value itself suffices). -/
def natDecimalReprAux : Nat → Nat → List Char
  | 0, _ => []
  | f + 1, n =>
    if n < 10 then [Char.ofNat (48 + n)]
    else natDecimalReprAux f (n / 10) ++ [Char.ofNat (48 + n % 10)]

/-- Model of JavaScript number-to-decimal-string rendering for the
nonnegative integers produced by Date.now(). -/
def natDecimalRepr (n : Nat) : List Char :=
  natDecimalReprAux (n + 1) n

/-- Does the second list start with the first one?  Model of the prefix
test underlying JavaScript String.prototype.includes / split. -/
def startsWithList : List Char → List Char → Bool
  | [], _ => true
  | _ :: _, [] => false
  | c :: cs, d :: ds => c = d && startsWithList cs ds

/-- Model of JavaScript String.prototype.includes: does `text` contain
`pat` as a contiguous substring?  includes of the empty string is true. -/
def containsSub (text pat : List Char) : Bool :=
  match text with
  | [] => pat.isEmpty
  | _ :: rest => startsWithList pat text || containsSub rest pat

/-- Scans every suffix of the input: wherever `sep` matches, that suffix
must be exactly `target`.  `onlyMarkerSuffix sep (sep ++ rest) l = true`
says the only occurrence of `sep` in `l` is the one followed by `rest`
at the end; being Bool-valued it is checkable by evaluation. -/
def onlyMarkerSuffix (sep target : List Char) : List Char → Bool
  | [] => !startsWithList sep [] || ([] == target)
  | c :: rest =>
    (!startsWithList sep (c :: rest) || ((c :: rest) == target))
      && onlyMarkerSuffix sep target rest

/-- Auxiliary recursion for the split model, on a fuel bound (the input
length plus one suffices, since each separator hit consumes at least one
character). -/
def listSplitOnAux : Nat → List Char → List Char → List (List Char)
  | 0, _, l => [l]
  | _ + 1, _, [] => [[]]
  | f + 1, sep, c :: rest =>
    if sep ≠ [] ∧ startsWithList sep (c :: rest) = true then
      [] :: listSplitOnAux f sep (List.drop sep.length (c :: rest))
    else
      match listSplitOnAux f sep rest with
      | [] => [[c]]
      | h' :: t => (c :: h') :: t

/-- Model of JavaScript String.prototype.split with a nonempty separator:
repeatedly cut at the leftmost occurrence of `sep`.  (The code only ever
splits on nonempty separators.) -/
def listSplitOn (sep : List Char) (l : List Char) : List (List Char) :=
  listSplitOnAux (l.length + 1) sep l

/-- The final '/'-separated segment of a URL: models
`url.split('/').pop()` resp. `parts[parts.length - 1]`. -/
def lastSegment (l : List Char) : List Char :=
  ((listSplitOn ['/'] l).getLast?).getD []

/-- Hexadecimal digit value, for the percent-decoding model. -/
def hexDigitVal (c : Char) : Option Nat :=
  if '0' ≤ c ∧ c ≤ '9' then some (c.toNat - 48)
  else if 'a' ≤ c ∧ c ≤ 'f' then some (c.toNat - 87)
  else if 'A' ≤ c ∧ c ≤ 'F' then some (c.toNat - 55)
  else none

/-- Modelled from the spec: URL-decode ("take the final path segment,
URL-decode it").  Model of the JavaScript decodeURIComponent builtin,
adequate for percent-free strings and single-byte percent escapes. -/
def decodeURIComponentModel : List Char → List Char
  | [] => []
  | c :: a :: b :: rest =>
    if c = '%' then
      match hexDigitVal a, hexDigitVal b with
      | some x, some y => Char.ofNat (16 * x + y) :: decodeURIComponentModel rest
      | _, _ => '%' :: decodeURIComponentModel (a :: b :: rest)
    else c :: decodeURIComponentModel (a :: b :: rest)
  | c :: rest => c :: decodeURIComponentModel rest

/-- The JavaScript whitespace set: the characters matched by the regex
class `\s` and stripped by String.prototype.trim (WhiteSpace together with
the line terminators). -/
def jsIsWhite (c : Char) : Bool :=
  decide (c.toNat = 9 ∨ c.toNat = 10 ∨ c.toNat = 11 ∨ c.toNat = 12 ∨ c.toNat = 13 ∨
    c.toNat = 32 ∨ c.toNat = 160 ∨ c.toNat = 0x1680 ∨
    (0x2000 ≤ c.toNat ∧ c.toNat ≤ 0x200a) ∨
    c.toNat = 0x2028 ∨ c.toNat = 0x2029 ∨ c.toNat = 0x202f ∨
    c.toNat = 0x205f ∨ c.toNat = 0x3000 ∨ c.toNat = 0xfeff)

/-- Model of JavaScript String.prototype.trim: drop whitespace and line
terminators from both ends. -/
def jsTrim (s : String) : String :=
  String.mk (((s.data.dropWhile jsIsWhite).reverse.dropWhile jsIsWhite).reverse)

/-! ## Storage backends (src/lib/supabase-storage.ts) -/

/-- The characters the upload sanitization keeps: the regex class
`[a-zA-Z0-9.-]` of `file.name.replace(/[^a-zA-Z0-9.-]/g, '_')`. -/
def sanAllowed (c : Char) : Bool :=
  decide (('a' ≤ c ∧ c ≤ 'z') ∨ ('A' ≤ c ∧ c ≤ 'Z') ∨ ('0' ≤ c ∧ c ≤ '9') ∨
    c = '.' ∨ c = '-')

/-- `file.name.replace(/[^a-zA-Z0-9.-]/g, '_')`, shared by both upload
functions (supabase-storage.ts lines 15 and 135). -/
def sanitizeFileName (name : String) : String :=
  String.mk (name.data.map fun c => if sanAllowed c then c else '_')

/-- The storage path built by `uploadFileToSupabase`
(supabase-storage.ts line 16): `${timestamp}-${sanitizedFileName}`. -/
def supabaseFilePath (timestamp : Nat) (fileName : String) : String :=
  String.mk (natDecimalRepr timestamp) ++ "-" ++ sanitizeFileName fileName

/-- The object key built by `uploadFileToS3` (supabase-storage.ts line
136): `${folder}/${timestamp}-${sanitizedFileName}`. -/
def s3Key (folder : String) (timestamp : Nat) (fileName : String) : String :=
  folder ++ "/" ++ String.mk (natDecimalRepr timestamp) ++ "-" ++ sanitizeFileName fileName

/-- Environment configuration of the raw object-store backend
(supabase-storage.ts lines 100-109). -/
structure S3Config where
  region : String
  accessKeyId : String
  secretAccessKey : String
  bucket : String
  cloudFrontDomain : String
deriving DecidableEq

/-- The public URL `uploadFileToS3` returns (supabase-storage.ts lines
166-170): CloudFront domain when configured (nonempty, i.e. truthy),
otherwise the bucket-native S3 URL. -/
def s3PublicUrl (cfg : S3Config) (key : String) : String :=
  if cfg.cloudFrontDomain ≠ "" then
    "https://" ++ cfg.cloudFrontDomain ++ "/" ++ key
  else
    "https://" ++ cfg.bucket ++ ".s3." ++ cfg.region ++ ".amazonaws.com/" ++ key

/-- Modelled from the spec: the managed backend "handles public-URL
resolution natively" (the supabase-js library, not part of this
repository, resolves `getPublicUrl(path)` to
`{projectUrl}/storage/v1/object/public/{bucket}/{path}`). -/
def supabasePublicUrl (projectUrl bucket path : String) : String :=
  projectUrl ++ "/storage/v1/object/public/" ++ bucket ++ "/" ++ path

/-- Decidable equality for `Except`, so concrete runs of the fallible
operations can be checked by evaluation. -/
instance exceptDecEq {α β : Type} [DecidableEq α] [DecidableEq β] :
    DecidableEq (Except α β) := fun a b =>
  match a, b with
  | .error x, .error y =>
    if h : x = y then isTrue (by rw [h]) else isFalse (fun he => h (by cases he; rfl))
  | .error _, .ok _ => isFalse (fun he => Except.noConfusion he)
  | .ok _, .error _ => isFalse (fun he => Except.noConfusion he)
  | .ok x, .ok y =>
    if h : x = y then isTrue (by rw [h]) else isFalse (fun he => h (by cases he; rfl))

/-- The delete request `deleteFileFromS3` would send: target bucket and
object key; the key is absent (`none`) when the JavaScript expression for
it evaluates to undefined. -/
structure S3DeleteRequest where
  bucket : String
  key : Option String
deriving DecidableEq

/-- `deleteFileFromS3` (supabase-storage.ts lines 194-214), embedded as
the request it issues: error when the bucket is unconfigured; otherwise
the key is `fileUrl.split(cloudFrontDomain + '/')[1]` when the URL
contains the CloudFront domain, else
`fileUrl.split('.amazonaws.com/')[1] || fileUrl` (the `||` falls back to
the whole URL when the split yields undefined or an empty string). -/
def deleteFileFromS3 (cfg : S3Config) (fileUrl : String) :
    Except String S3DeleteRequest :=
  if cfg.bucket = "" then .error ("AWS S3 bucket not configured")
  else
    let key : Option String :=
      if containsSub fileUrl.data cfg.cloudFrontDomain.data then
        ((listSplitOn (cfg.cloudFrontDomain ++ "/").data fileUrl.data)[1]?).map String.mk
      else
        let part := ((listSplitOn (".amazonaws.com/".data) fileUrl.data)[1]?).getD []
        some (if part = [] then fileUrl else String.mk part)
    .ok ⟨cfg.bucket, key⟩

/-- `deleteFileFromSupabase` (supabase-storage.ts lines 53-70), embedded
as the remove request it issues: `fileUrl.split('/').pop()`, error
'Invalid file URL' when that is falsy (the empty string), otherwise a
remove-by-name in the given bucket. -/
def deleteFileFromSupabase (fileUrl : String) (bucket : String) :
    Except String (String × String) :=
  let fileName := lastSegment fileUrl.data
  if fileName = [] then .error ("Invalid file URL")
  else .ok (bucket, String.mk fileName)

/-! ## Upload pre-validation (FileUpload component, handleFileSelect) -/

/-- Outcome of the size gate in `handleFileSelect`: either the early
return with the error message (before any storage call), or the call to
`uploadFileToSupabase`. -/
inductive UploadDecision where
  | rejected (message : String)
  | uploaded
deriving DecidableEq

/-- The size gate of `handleFileSelect` in the FileUpload component:
`maxSizeBytes = maxSizeMB * 1024 * 1024`; a strictly larger file is
rejected with the error message and the function returns before invoking
the storage upload. -/
def fileUploadHandleFileSelect (fileSize maxSizeMB : Nat) : UploadDecision :=
  let maxSizeBytes := maxSizeMB * 1024 * 1024
  if fileSize > maxSizeBytes then
    .rejected ("File size must be less than " ++ String.mk (natDecimalRepr maxSizeMB) ++ "MB")
  else .uploaded

/-! ## Media gallery (MediaManager component) -/

inductive MediaKind where
  | image
  | video
deriving DecidableEq

/-- The component state touched by `handleDelete` in MediaManager. -/
structure GalleryState where
  images : List String
  videos : List String
  error : String
  deleting : Option String
deriving DecidableEq

/-- `handleDelete` of MediaManager (MediaManager.tsx lines 38-59) as a
state transition.  `confirmed` is the result of the confirm() dialog;
`deleteResult` is the outcome of the adapter delete call (`.error` when
`deleteFileFromSupabase` throws, carrying the thrown message).  On
success the matching kind's list is filtered; on failure the lists are
untouched and the error message is stored; `deleting` is reset on every
exit path (the finally block). -/
def handleDelete (st : GalleryState) (confirmed : Bool)
    (deleteResult : Except String Unit) (fileUrl : String) (kind : MediaKind) :
    GalleryState :=
  if !confirmed then st
  else
    match deleteResult with
    | .ok _ =>
      match kind with
      | .image => { st with images := st.images.filter (fun u => u != fileUrl),
                            error := "", deleting := none }
      | .video => { st with videos := st.videos.filter (fun u => u != fileUrl),
                            error := "", deleting := none }
    | .error e => { st with error := e, deleting := none }

/-- The display-name derivation `getFileName` of MediaManager
(MediaManager.tsx lines 61-65):
`decodeURIComponent(parts[parts.length - 1]).split('-').slice(1).join('-')`
where `parts = url.split('/')`. -/
def getFileName (url : String) : String :=
  String.mk (List.intercalate ['-']
    ((listSplitOn ['-'] (decodeURIComponentModel (lastSegment url.data))).drop 1))

/-! ## A backtracking regular-expression engine

The classifier in src/lib/video-utils.ts works by JavaScript regular
expressions.  The engine below implements their semantics for the
features those three patterns use: ordered alternation, greedy `*`, `+`,
`?` and `{n}` with backtracking, character classes, one capturing group,
and the `$` anchor; `match` scans candidate start positions left to
right.  `mrun` returns the list of possible (remaining-suffix, group-1
capture) outcomes in backtracking priority order; a fuel argument bounds
the recursion depth (the search instantiates it generously). -/

inductive RE where
  | eps : RE
  | eos : RE
  | cls : (Char → Bool) → RE
  | seq : RE → RE → RE
  | alt : RE → RE → RE
  | star : RE → RE
  | group : RE → RE

/-- Combine group-1 captures of two sequenced parts: a later capture
overwrites an earlier one (JavaScript semantics); at most one side ever
captures here since each pattern has a single group. -/
def mergeCap (a b : Option (List Char)) : Option (List Char) :=
  match b with
  | some x => some x
  | none => a

/-- All outcomes of matching `r` against a prefix of `s`, as
(remaining suffix, group-1 capture) pairs in backtracking priority
order.  A star iteration must consume at least one character, as in
JavaScript (an empty-width iteration ends the loop). -/
def mrun : Nat → RE → List Char → List (List Char × Option (List Char))
  | 0, _, _ => []
  | _ + 1, .eps, s => [(s, none)]
  | _ + 1, .eos, s => if s.isEmpty then [(s, none)] else []
  | _ + 1, .cls _, [] => []
  | _ + 1, .cls p, c :: s => if p c then [(s, none)] else []
  | f + 1, .alt a b, s => mrun f a s ++ mrun f b s
  | f + 1, .seq a b, s =>
    (mrun f a s).flatMap fun r =>
      (mrun f b r.1).map fun r' => (r'.1, mergeCap r.2 r'.2)
  | f + 1, .star a, s =>
    (((mrun f a s).filter fun r => r.1.length < s.length).flatMap fun r =>
      (mrun f (.star a) r.1).map fun r' => (r'.1, mergeCap r.2 r'.2))
    ++ [(s, none)]
  | f + 1, .group a, s =>
    (mrun f a s).map fun r => (r.1, some (s.take (s.length - r.1.length)))

/-- A single literal character. -/
def lit (c : Char) : RE := .cls fun d => d == c

/-- A literal string, as a `seq` chain. -/
def litStr (s : List Char) : RE := s.foldr (fun c r => .seq (lit c) r) .eps

/-- ASCII upper-casing, the canonicalisation applied by the `/i` flag for
the ASCII pattern letters it is used on here. -/
def upperAscii (c : Char) : Char :=
  if 'a' ≤ c ∧ c ≤ 'z' then Char.ofNat (c.toNat - 32) else c

/-- A case-insensitive literal character (for the `/i` extension test). -/
def litCI (c : Char) : RE := .cls fun d => upperAscii d == upperAscii c

/-- A case-insensitive literal string. -/
def litStrCI (s : List Char) : RE := s.foldr (fun c r => .seq (litCI c) r) .eps

/-- Greedy `?`. -/
def reOpt (r : RE) : RE := .alt r .eps

/-- Greedy `+`. -/
def rePlus (r : RE) : RE := .seq r (.star r)

/-- Exact repetition `{n}`. -/
def reRepeat (r : RE) : Nat → RE
  | 0 => .eps
  | n + 1 => .seq r (reRepeat r n)

/-- The JavaScript `.`: any character other than a line terminator. -/
def jsDot (c : Char) : Bool :=
  decide (¬ (c.toNat = 10 ∨ c.toNat = 13 ∨ c.toNat = 0x2028 ∨ c.toNat = 0x2029))

/-- The class `[^"&?\/\s]` of the YouTube pattern. -/
def ytIdChar (c : Char) : Bool :=
  !(c == '"' || c == '&' || c == '?' || c == '/' || jsIsWhite c)

/-- The class `\w`. -/
def wordChar (c : Char) : Bool :=
  decide (('a' ≤ c ∧ c ≤ 'z') ∨ ('A' ≤ c ∧ c ≤ 'Z') ∨ ('0' ≤ c ∧ c ≤ '9') ∨ c = '_')

/-- The class `\d`. -/
def digitCh (c : Char) : Bool := decide ('0' ≤ c ∧ c ≤ '9')

/-- The class `[^\/]`. -/
def notSlash (c : Char) : Bool := !(c == '/')

/-- The class `[?&]`. -/
def queryAmp (c : Char) : Bool := c == '?' || c == '&'

/-- video-utils.ts line 17:
`(?:youtube\.com\/(?:[^\/]+\/.+\/|(?:v|e(?:mbed)?)\/|.*[?&]v=)|youtu\.be\/)([^"&?\/\s]{11})`. -/
def youtubeRE : RE :=
  .seq
    (.alt
      (.seq (litStr ("youtube.com/".data))
        (.alt
          (.seq (rePlus (.cls notSlash)) (.seq (lit '/') (.seq (rePlus (.cls jsDot)) (lit '/'))))
          (.alt
            (.seq (.alt (lit 'v') (.seq (lit 'e') (reOpt (litStr ("mbed".data))))) (lit '/'))
            (.seq (.star (.cls jsDot)) (.seq (.cls queryAmp) (litStr ("v=".data)))))))
      (litStr ("youtu.be/".data)))
    (.group (reRepeat (.cls ytIdChar) 11))

/-- video-utils.ts line 28:
`vimeo\.com\/(?:channels\/(?:\w+\/)?|groups\/(?:[^\/]*)\/videos\/|album\/(?:\d+)\/video\/|video\/|)(\d+)(?:|\/\?)`. -/
def vimeoRE : RE :=
  .seq (litStr ("vimeo.com/".data))
    (.seq
      (.alt
        (.seq (litStr ("channels/".data)) (reOpt (.seq (rePlus (.cls wordChar)) (lit '/'))))
        (.alt
          (.seq (litStr ("groups/".data)) (.seq (.star (.cls notSlash)) (litStr ("/videos/".data))))
          (.alt
            (.seq (litStr ("album/".data)) (.seq (rePlus (.cls digitCh)) (litStr ("/video/".data))))
            (.alt (litStr ("video/".data)) .eps))))
      (.seq (.group (rePlus (.cls digitCh))) (.alt .eps (litStr ("/?".data)))))

/-- video-utils.ts line 39: `\.(mp4|webm|ogg|mov)(\?.*)?$` with `/i`. -/
def extRE : RE :=
  .seq (lit '.')
    (.seq
      (.group (.alt (litStrCI ("mp4".data))
        (.alt (litStrCI ("webm".data)) (.alt (litStrCI ("ogg".data)) (litStrCI ("mov".data))))))
      (.seq (reOpt (.seq (lit '?') (.star (.cls jsDot)))) .eos))

/-- Fuel that dominates the backtracking depth of the three patterns
above on an input of the given length (each recursive call of `mrun`
either shortens the suffix or moves to a structurally smaller pattern,
and all three patterns have size below 64). -/
def reFuel (l : List Char) : Nat := 64 * (l.length + 1)

/-- Scan start positions left to right; at the first position where the
pattern matches, return the group-1 capture of the highest-priority
match (JavaScript String.prototype.match). -/
def searchAux (fuel : Nat) (r : RE) : List Char → Option (Option (List Char))
  | [] => ((mrun fuel r []).head?).map (fun x => x.2)
  | c :: s =>
    match (mrun fuel r (c :: s)).head? with
    | some x => some x.2
    | none => searchAux fuel r s

/-- `cleanUrl.match(regex)`, reduced to the data the classifier uses:
`none` when there is no match, `some capture` otherwise. -/
def reSearch (r : RE) (l : List Char) : Option (Option (List Char)) :=
  searchAux (reFuel l) r l

/-- Patterns that can only match by consuming at least one character. -/
def consumesOne : RE → Bool
  | .eps => false
  | .eos => false
  | .cls _ => true
  | .seq a b => consumesOne a || consumesOne b
  | .alt a b => consumesOne a && consumesOne b
  | .star _ => false
  | .group a => consumesOne a

/-- Patterns all of whose capturing groups have bodies that must consume
at least one character. -/
def groupsConsume : RE → Bool
  | .eps => true
  | .eos => true
  | .cls _ => true
  | .seq a b => groupsConsume a && groupsConsume b
  | .alt a b => groupsConsume a && groupsConsume b
  | .star a => groupsConsume a
  | .group a => consumesOne a && groupsConsume a

/-- ASCII-case-insensitive character comparison, as performed by the
`litCI` nodes of the `/i` extension pattern. -/
def ciEq (a b : Char) : Bool := upperAscii a == upperAscii b

/-- Pointwise ASCII-case-insensitive equality of two character lists of
equal length. -/
def ciEqList : List Char → List Char → Bool
  | [], [] => true
  | a :: as, b :: bs => ciEq a b && ciEqList as bs
  | _, _ => false

/-! ## The video URL classifier (src/lib/video-utils.ts) -/

inductive VideoType where
  | youtube
  | vimeo
  | direct
  | unknown
deriving DecidableEq, Repr

structure VideoInfo where
  type : VideoType
  url : String
  embedUrl : Option String := none
  videoId : Option String := none
deriving DecidableEq, Repr

/-- Interpolation of a possibly-undefined value into a JavaScript
template literal. -/
def jsTemplate : Option String → String
  | some s => s
  | none => "undefined"

/-- `parseVideoUrl` (video-utils.ts lines 10-48): empty input short
circuits; otherwise the trimmed URL is tried against the YouTube pattern,
then the Vimeo pattern, then the file-extension test, in that order. -/
def parseVideoUrl (url : String) : VideoInfo :=
  if url = "" then ⟨.unknown, "", none, none⟩
  else
    let cleanUrl := jsTrim url
    match reSearch youtubeRE cleanUrl.data with
    | some g =>
      let vid := g.map String.mk
      ⟨.youtube, cleanUrl,
        some ("https://www.youtube.com/embed/" ++ jsTemplate vid ++ "?rel=0&modestbranding=1"),
        vid⟩
    | none =>
      match reSearch vimeoRE cleanUrl.data with
      | some g =>
        let vid := g.map String.mk
        ⟨.vimeo, cleanUrl, some ("https://player.vimeo.com/video/" ++ jsTemplate vid), vid⟩
      | none =>
        if (reSearch extRE cleanUrl.data).isSome then ⟨.direct, cleanUrl, none, none⟩
        else ⟨.unknown, cleanUrl, none, none⟩

/-- `getVideoThumbnail` (video-utils.ts lines 50-60): a YouTube result
with a truthy (nonempty) videoId yields the maxresdefault thumbnail URL;
every other input yields null. -/
def getVideoThumbnail (v : VideoInfo) : Option String :=
  match v.type, v.videoId with
  | .youtube, some vid =>
    if vid = "" then none
    else some ("https://img.youtube.com/vi/" ++ vid ++ "/maxresdefault.jpg")
  | _, _ => none

/-! ## Helper lemmas about the string models -/

/-- The split model agrees with Mathlib's single-element `List.splitOn`
when the separator is a single character (any sufficient fuel). -/
theorem listSplitOnAux_single (c : Char) :
    ∀ (f : Nat) (l : List Char), l.length < f → listSplitOnAux f [c] l = l.splitOn c := by
  intro f
  induction f with
  | zero => intro l hl; omega
  | succ f ih =>
    intro l hl
    match l with
    | [] => simp [listSplitOnAux, List.splitOn]
    | d :: rest =>
      have hrest : rest.length < f := by simp at hl; omega
      rw [listSplitOnAux, List.splitOn, List.splitOnP_cons]
      by_cases h : c = d
      · subst h
        rw [if_pos ⟨List.cons_ne_nil _ _, by simp [startsWithList]⟩]
        simp only [List.length_singleton, List.drop_succ_cons, List.drop_zero, beq_self_eq_true,
          if_true]
        rw [ih rest hrest, List.splitOn]
      · rw [if_neg (by simp [startsWithList, h])]
        have hbeq : (d == c) = false := by simp [BEq.beq]; exact fun hdc => h hdc.symm
        rw [hbeq, if_neg (by simp)]
        have ih' := ih rest hrest
        rw [List.splitOn] at ih'
        rcases heq : rest.splitOnP (· == c) with _ | ⟨h', t⟩
        · exact absurd heq (List.splitOnP_ne_nil _ rest)
        · rw [ih', heq]
          simp

/-- The split model agrees with Mathlib's single-element `List.splitOn`
when the separator is a single character. -/
theorem listSplitOn_single (c : Char) (l : List Char) :
    listSplitOn [c] l = l.splitOn c :=
  listSplitOnAux_single c (l.length + 1) l (by omega)

/-- A list containing an element satisfying `p` splits into at least two
pieces. -/
theorem splitOnP_two_le {α : Type} (p : α → Bool) (sep : α) (hsep : p sep = true) :
    ∀ l : List α, sep ∈ l → 2 ≤ (l.splitOnP p).length := by
  intro l hl
  induction l with
  | nil => cases hl
  | cons d rest ih =>
    rw [List.splitOnP_cons]
    by_cases h : p d = true
    · rw [if_pos h]
      have := List.splitOnP_ne_nil p rest
      have : 0 < (rest.splitOnP p).length := List.length_pos.mpr this
      simp only [List.length_cons]
      omega
    · have hd : d ≠ sep := fun he => h (he ▸ hsep)
      have hmem : sep ∈ rest := by
        rcases hl with _ | hl
        · exact absurd rfl hd
        · assumption
      rw [if_neg h]
      rw [List.length_modifyHead]
      exact ih hmem

/-- The last piece of splitting `pre ++ sep :: b` is `b`, when `b` is
free of separators (`pre` is arbitrary). -/
theorem splitOnP_getLast {α : Type} (p : α → Bool) (sep : α) (hsep : p sep = true)
    (pre b : List α) (hb : ∀ x ∈ b, p x = false) :
    ((pre ++ sep :: b).splitOnP p).getLast? = some b := by
  induction pre with
  | nil =>
    rw [List.nil_append, List.splitOnP_cons, if_pos hsep,
      List.splitOnP_eq_single _ _ (fun x hx => by simp [hb x hx])]
    rfl
  | cons d pre' ih =>
    rw [List.cons_append, List.splitOnP_cons]
    have h2 : 2 ≤ ((pre' ++ sep :: b).splitOnP p).length :=
      splitOnP_two_le p sep hsep _ (by simp)
    by_cases h : p d = true
    · rw [if_pos h]
      rcases heq : (pre' ++ sep :: b).splitOnP p with _ | ⟨x, xs⟩
      · exact absurd heq (List.splitOnP_ne_nil _ _)
      · rw [heq] at ih
        rw [List.getLast?_cons_cons, ih]
    · rw [if_neg h]
      rcases heq : (pre' ++ sep :: b).splitOnP p with _ | ⟨x, xs⟩
      · exact absurd heq (List.splitOnP_ne_nil _ _)
      · rcases xs with _ | ⟨x', xs'⟩
        · rw [heq] at h2; simp at h2
        · rw [heq] at ih
          rw [List.modifyHead_cons, List.getLast?_cons_cons, ← ih,
            List.getLast?_cons_cons]

/-- `lastSegment` of `base ++ "/" ++ tail` is `tail` whenever `tail`
contains no slash. -/
theorem lastSegment_append (base tail : List Char) (h : '/' ∉ tail) :
    lastSegment (base ++ '/' :: tail) = tail := by
  rw [lastSegment, listSplitOn_single, List.splitOn,
    splitOnP_getLast _ '/' (by simp) base tail
      (fun x hx => by simp; exact fun he => h (he ▸ hx))]
  rfl

/-- Percent-free strings decode to themselves. -/
theorem decode_no_percent (l : List Char) (h : '%' ∉ l) :
    decodeURIComponentModel l = l := by
  induction l with
  | nil => rfl
  | cons c rest ih =>
    have hc : c ≠ '%' := fun he => h (he ▸ List.mem_cons_self c rest)
    have hrest : '%' ∉ rest := fun hm => h (List.mem_cons_of_mem c hm)
    match rest, hrest, ih with
    | [], _, _ => rfl
    | [a], _, _ => rfl
    | a :: b :: rest', hr, ih' =>
      simp only [decodeURIComponentModel, if_neg hc]
      rw [ih' hr]

/-- Decimal renderings consist of digit characters only (any fuel). -/
theorem natDecimalReprAux_digits :
    ∀ (f n : Nat), ∀ c ∈ natDecimalReprAux f n, 48 ≤ c.toNat ∧ c.toNat ≤ 57 := by
  intro f
  induction f with
  | zero => intro n c hc; simp [natDecimalReprAux] at hc
  | succ f ih =>
    intro n c hc
    rw [natDecimalReprAux] at hc
    by_cases h : n < 10
    · rw [if_pos h] at hc
      rw [List.mem_singleton] at hc
      subst hc
      interval_cases n <;> simp
    · rw [if_neg h] at hc
      rcases List.mem_append.mp hc with h1 | h2
      · exact ih (n / 10) c h1
      · rw [List.mem_singleton] at h2
        subst h2
        have hm : n % 10 < 10 := Nat.mod_lt _ (by omega)
        set m := n % 10 with hmdef
        interval_cases m <;> simp

/-- Decimal renderings consist of digit characters only. -/
theorem natDecimalRepr_digits (n : Nat) :
    ∀ c ∈ natDecimalRepr n, 48 ≤ c.toNat ∧ c.toNat ≤ 57 :=
  natDecimalReprAux_digits (n + 1) n

/-- A decimal rendering contains neither a dash, a slash, nor a percent
sign. -/
theorem natDecimalRepr_special (n : Nat) :
    '-' ∉ natDecimalRepr n ∧ '/' ∉ natDecimalRepr n ∧ '%' ∉ natDecimalRepr n := by
  refine ⟨fun h => ?_, fun h => ?_, fun h => ?_⟩ <;>
    have := natDecimalRepr_digits n _ h <;> simp_all

/-- Every character of a sanitized file name is either kept (hence in
the class `[a-zA-Z0-9.-]`) or an underscore. -/
theorem sanitizeFileName_chars (name : String) :
    ∀ c ∈ (sanitizeFileName name).data, sanAllowed c = true ∨ c = '_' := by
  intro c hc
  simp only [sanitizeFileName, List.mem_map] at hc
  obtain ⟨d, _, hd⟩ := hc
  by_cases h : sanAllowed d = true
  · rw [if_pos h] at hd
    exact Or.inl (hd ▸ h)
  · rw [if_neg h] at hd
    exact Or.inr hd.symm

/-- A sanitized file name contains neither a slash nor a percent sign. -/
theorem sanitizeFileName_special (name : String) :
    '/' ∉ (sanitizeFileName name).data ∧ '%' ∉ (sanitizeFileName name).data := by
  constructor <;> intro h <;> rcases sanitizeFileName_chars name _ h with h' | h' <;>
    simp [sanAllowed] at h'

/-- Core of the display-name round trip: for any URL of the form
`base ++ "/" ++ {timestamp}-{sanitizedName}`, `getFileName` recovers the
sanitized name. -/
theorem getFileName_key_list (pre : List Char) (t : Nat) (name : String) :
    getFileName ⟨pre ++ '/' :: (natDecimalRepr t ++ '-' :: (sanitizeFileName name).data)⟩
      = sanitizeFileName name := by
  have hsan := sanitizeFileName_special name
  have hnat := natDecimalRepr_special t
  have hslash : '/' ∉ natDecimalRepr t ++ '-' :: (sanitizeFileName name).data := by
    intro hmem
    rcases List.mem_append.mp hmem with h1 | h2
    · exact hnat.2.1 h1
    · rw [List.mem_cons] at h2
      rcases h2 with h2 | h2
      · exact absurd h2 (by decide)
      · exact hsan.1 h2
  have hpct : '%' ∉ natDecimalRepr t ++ '-' :: (sanitizeFileName name).data := by
    intro hmem
    rcases List.mem_append.mp hmem with h1 | h2
    · exact hnat.2.2 h1
    · rw [List.mem_cons] at h2
      rcases h2 with h2 | h2
      · exact absurd h2 (by decide)
      · exact hsan.2 h2
  unfold getFileName
  rw [show (⟨pre ++ '/' :: (natDecimalRepr t ++ '-' :: (sanitizeFileName name).data)⟩ :
        String).data = pre ++ '/' :: (natDecimalRepr t ++ '-' :: (sanitizeFileName name).data)
      from rfl]
  rw [lastSegment_append _ _ hslash, decode_no_percent _ hpct, listSplitOn_single,
    List.splitOn,
    List.splitOnP_first _ _ (fun x hx => by simp; exact fun he => hnat.1 (he ▸ hx)) '-'
      (by simp) _]
  rw [List.drop_one, List.tail_cons]
  rw [show ((sanitizeFileName name).data.splitOnP (· == '-'))
        = (sanitizeFileName name).data.splitOn '-' from rfl]
  rw [List.intercalate_splitOn]

/-- Unfolding the data of a constructed string. -/
theorem data_mk (l : List Char) : (String.mk l).data = l := rfl

/-- The data of the supabase upload path. -/
theorem supabaseFilePath_data (t : Nat) (name : String) :
    (supabaseFilePath t name).data
      = natDecimalRepr t ++ '-' :: (sanitizeFileName name).data := by
  simp only [supabaseFilePath, String.data_append, data_mk, List.append_assoc]
  rfl

/-- Display-name round trip for any URL that appends `"/"` and the
supabase upload path to an arbitrary base string. -/
theorem getFileName_base (pre : String) (t : Nat) (name : String) :
    getFileName (pre ++ "/" ++ supabaseFilePath t name) = sanitizeFileName name := by
  have h : pre ++ "/" ++ supabaseFilePath t name
      = ⟨pre.data ++ '/' :: (natDecimalRepr t ++ '-' :: (sanitizeFileName name).data)⟩ :=
    String.ext (by
      simp only [String.data_append, supabaseFilePath_data, List.append_assoc]
      rfl)
  rw [h, getFileName_key_list]

/-- Splitting on a separator that does not occur yields the whole input
(any sufficient fuel). -/
theorem listSplitOnAux_not_contains :
    ∀ (f : Nat) (sep l : List Char), l.length < f → containsSub l sep = false →
      listSplitOnAux f sep l = [l] := by
  intro f
  induction f with
  | zero => intro sep l hl _; omega
  | succ f ih =>
    intro sep l hl hc
    match l with
    | [] => rfl
    | c :: rest =>
      rw [containsSub] at hc
      rw [Bool.or_eq_false_iff] at hc
      rw [listSplitOnAux, if_neg (fun hand => by rw [hand.2] at hc; exact absurd hc.1 (by simp))]
      rw [ih sep rest (by simp at hl; omega) hc.2]

/-- Splitting on a separator that does not occur yields the whole input. -/
theorem listSplitOn_not_contains (sep l : List Char) (h : containsSub l sep = false) :
    listSplitOn sep l = [l] :=
  listSplitOnAux_not_contains (l.length + 1) sep l (by omega) h

/-- A list starts with itself followed by anything. -/
theorem startsWithList_append_self : ∀ (sep x : List Char),
    startsWithList sep (sep ++ x) = true := by
  intro sep x
  induction sep with
  | nil => rfl
  | cons c cs ih => simp [startsWithList, ih]

/-- A list containing a marker occurrence contains the marker. -/
theorem containsSub_append_marker : ∀ (pre sep x : List Char),
    containsSub (pre ++ (sep ++ x)) sep = true := by
  intro pre sep x
  induction pre with
  | nil =>
    rw [List.nil_append]
    cases sep with
    | nil =>
      cases x with
      | nil => rfl
      | cons c x' => simp [containsSub, startsWithList]
    | cons c cs =>
      rw [show (c :: cs) ++ x = c :: (cs ++ x) from rfl, containsSub]
      rw [show c :: (cs ++ x) = (c :: cs) ++ x from rfl, startsWithList_append_self]
      rfl
  | cons d pre' ih =>
    rw [List.cons_append, containsSub, ih]
    simp

/-- A positive substring test exhibits a suffix starting with the
pattern. -/
theorem containsSub_exists : ∀ (l pat : List Char), containsSub l pat = true →
    ∃ t : List Char, t.IsSuffix l ∧ startsWithList pat t = true := by
  intro l pat
  induction l with
  | nil =>
    intro h
    rw [containsSub] at h
    refine ⟨[], ⟨[], rfl⟩, ?_⟩
    cases pat with
    | nil => rfl
    | cons c cs => simp at h
  | cons c rest ih =>
    intro h
    rw [containsSub, Bool.or_eq_true] at h
    rcases h with h | h
    · exact ⟨c :: rest, ⟨[], rfl⟩, h⟩
    · obtain ⟨t, ⟨w, hw⟩, hst⟩ := ih h
      exact ⟨t, ⟨c :: w, by rw [List.cons_append, hw]⟩, hst⟩

/-- Soundness of the suffix scan: it certifies that every suffix
starting with the marker is the designated one. -/
theorem onlyMarkerSuffix_spec (sep target : List Char) :
    ∀ l : List Char, onlyMarkerSuffix sep target l = true →
      ∀ t : List Char, t.IsSuffix l → startsWithList sep t = true → t = target := by
  intro l
  induction l with
  | nil =>
    intro h t hts hst
    obtain ⟨w, hw⟩ := hts
    have ht : t = [] := by
      cases t with
      | nil => rfl
      | cons a t' => exact absurd (congrArg List.length hw) (by simp)
    subst ht
    rw [onlyMarkerSuffix, hst] at h
    simpa using h
  | cons c rest ih =>
    intro h t hts hst
    rw [onlyMarkerSuffix, Bool.and_eq_true] at h
    obtain ⟨w, hw⟩ := hts
    cases w with
    | nil =>
      rw [List.nil_append] at hw
      subst hw
      rw [hst] at h
      have h1 := h.1
      simpa using h1
    | cons d w' =>
      rw [List.cons_append] at hw
      have hw' : w' ++ t = rest := by
        injection hw with _ h2
      exact ih h.2 t ⟨w', hw'⟩ hst

/-- Splitting at a unique marker occurrence yields exactly the piece
before and the piece after it. -/
theorem listSplitOnAux_once :
    ∀ (f : Nat) (sep pre rest : List Char), sep ≠ [] →
      (pre ++ sep ++ rest).length < f →
      (∀ t : List Char, t.IsSuffix (pre ++ sep ++ rest) →
        startsWithList sep t = true → t = sep ++ rest) →
      listSplitOnAux f sep (pre ++ sep ++ rest) = [pre, rest] := by
  intro f
  induction f with
  | zero => intro sep pre rest _ hl _; omega
  | succ f ih =>
    intro sep pre rest hsep hl huniq
    cases pre with
    | nil =>
      rw [List.nil_append] at hl huniq ⊢
      obtain ⟨c, cs, rfl⟩ : ∃ c cs, sep = c :: cs := by
        cases sep with
        | nil => exact absurd rfl hsep
        | cons c cs => exact ⟨c, cs, rfl⟩
      rw [show (c :: cs) ++ rest = c :: (cs ++ rest) from rfl, listSplitOnAux,
        if_pos ⟨hsep, by
          rw [show c :: (cs ++ rest) = (c :: cs) ++ rest from rfl]
          exact startsWithList_append_self _ _⟩]
      rw [show List.drop (c :: cs).length (c :: (cs ++ rest)) = rest from by
        rw [show c :: (cs ++ rest) = (c :: cs) ++ rest from rfl]
        exact List.drop_left _ _]
      have hnorest : containsSub rest (c :: cs) = false := by
        by_contra hcon
        rw [Bool.not_eq_false] at hcon
        obtain ⟨t, ⟨w, hw⟩, hst⟩ := containsSub_exists rest (c :: cs) hcon
        have hts : t.IsSuffix ((c :: cs) ++ rest) :=
          ⟨(c :: cs) ++ w, by rw [List.append_assoc, hw]⟩
        have heq := huniq t hts hst
        have hlen := congrArg List.length hw
        rw [heq] at hlen
        simp [List.length_append] at hlen
        omega
      rw [listSplitOnAux_not_contains f (c :: cs) rest (by simp at hl; omega) hnorest]
    | cons d pre' =>
      rw [show ((d :: pre') ++ sep ++ rest) = d :: (pre' ++ sep ++ rest) from by
        simp] at hl huniq ⊢
      rw [listSplitOnAux, if_neg ?hneg]
      case hneg =>
        rintro ⟨_, hstart⟩
        have heq := huniq (d :: (pre' ++ sep ++ rest)) ⟨[], rfl⟩ hstart
        have hlen := congrArg List.length heq
        simp [List.length_append] at hlen
        omega
      have huniq' : ∀ t : List Char, t.IsSuffix (pre' ++ sep ++ rest) →
          startsWithList sep t = true → t = sep ++ rest := by
        intro t ⟨w, hw⟩ hst
        exact huniq t ⟨d :: w, by rw [List.cons_append, hw]⟩ hst
      rw [ih sep pre' rest hsep (by simp at hl ⊢; omega) huniq']

/-- Splitting at a unique marker occurrence yields exactly the piece
before and the piece after it. -/
theorem listSplitOn_once (sep pre rest : List Char) (hsep : sep ≠ [])
    (huniq : ∀ t : List Char, t.IsSuffix (pre ++ sep ++ rest) →
      startsWithList sep t = true → t = sep ++ rest) :
    listSplitOn sep (pre ++ sep ++ rest) = [pre, rest] :=
  listSplitOnAux_once ((pre ++ sep ++ rest).length + 1) sep pre rest hsep
    (by omega) huniq

/-! ## The claims -/

/-- C1 counterexample: for the file name "a b.png" uploaded at timestamp
5, the managed backend's stored path is "5-a_b.png": it contains no
slash at all, so it is not of the claimed shape
`{destinationFolder}/{currentEpochMillis}-{sanitizedOriginalName}`
(which the raw backend does produce, shown for folder "product-images"). -/
theorem c1_counterexample :
    supabaseFilePath 5 "a b.png" = "5-a_b.png" ∧
    containsSub ("5-a_b.png".data) ("/".data) = false ∧
    s3Key "product-images" 5 "a b.png" = "product-images/5-a_b.png" := by
  refine ⟨by decide, by decide, by decide⟩

/-- C1 (amended): the raw object-store backend constructs its key as
`{destinationFolder}/{currentEpochMillis}-{sanitizedOriginalName}`,
while the managed backend constructs the path
`{currentEpochMillis}-{sanitizedOriginalName}` within the destination
bucket, with no folder prefix; both use the same sanitization, which
keeps every Latin letter, digit, dot and dash unchanged and replaces
every other character with an underscore. -/
theorem c1_upload_key_shape (folder : String) (t : Nat) (name : String) :
    s3Key folder t name = folder ++ "/" ++ supabaseFilePath t name ∧
    supabaseFilePath t name
      = String.mk (natDecimalRepr t) ++ "-" ++ sanitizeFileName name ∧
    List.Forall₂
      (fun a b => (sanAllowed a = true → b = a) ∧ (sanAllowed a = false → b = '_'))
      name.data (sanitizeFileName name).data := by
  refine ⟨by simp [s3Key, supabaseFilePath, String.append_assoc], rfl, ?_⟩
  have key : ∀ l : List Char,
      List.Forall₂
        (fun a b => (sanAllowed a = true → b = a) ∧ (sanAllowed a = false → b = '_'))
        l (l.map fun c => if sanAllowed c then c else '_') := by
    intro l
    induction l with
    | nil => exact List.Forall₂.nil
    | cons c rest ih =>
      exact List.Forall₂.cons ⟨fun h => by simp [h], fun h => by simp [h]⟩ ih
  exact key name.data

/-- C3: deriving the display name from the public URL of an uploaded
key (final path segment, URL-decoded, leading timestamp token stripped)
recovers exactly the sanitized original file name — for the managed
backend's URL shape and for both raw-backend URL shapes (CDN override
and bucket-native), for every project URL, bucket, folder,
configuration, timestamp and original name. -/
theorem c3_display_roundtrip (projectUrl bucket folder : String) (cfg : S3Config)
    (t : Nat) (name : String) :
    getFileName (supabasePublicUrl projectUrl bucket (supabaseFilePath t name))
      = sanitizeFileName name ∧
    getFileName (s3PublicUrl cfg (s3Key folder t name)) = sanitizeFileName name := by
  constructor
  · exact getFileName_base (projectUrl ++ "/storage/v1/object/public/" ++ bucket) t name
  · rw [s3PublicUrl]
    by_cases h : cfg.cloudFrontDomain ≠ ""
    · rw [if_pos h]
      have he : "https://" ++ cfg.cloudFrontDomain ++ "/" ++ s3Key folder t name
          = ("https://" ++ cfg.cloudFrontDomain ++ "/" ++ folder) ++ "/"
              ++ supabaseFilePath t name := by
        simp [s3Key, supabaseFilePath, String.append_assoc]
      rw [he, getFileName_base]
    · rw [if_neg h]
      have he : "https://" ++ cfg.bucket ++ ".s3." ++ cfg.region ++ ".amazonaws.com/"
            ++ s3Key folder t name
          = ("https://" ++ cfg.bucket ++ ".s3." ++ cfg.region ++ ".amazonaws.com/"
              ++ folder) ++ "/" ++ supabaseFilePath t name := by
        simp [s3Key, supabaseFilePath, String.append_assoc]
      rw [he, getFileName_base]

/-- C4 counterexample: with a CloudFront domain configured, deleting a
URL that contains neither the CloudFront domain nor the backend-native
`.amazonaws.com/` marker does not fail with a delete error — the raw
backend issues a delete whose key is the whole URL itself. -/
theorem c4_counterexample :
    deleteFileFromS3 ⟨"us-east-1", "id", "secret", "bkt", "cdn.example.com"⟩
        "https://other.example/foo"
      = .ok ⟨"bkt", some "https://other.example/foo"⟩ ∧
    containsSub ("https://other.example/foo".data) ("cdn.example.com".data) = false ∧
    containsSub ("https://other.example/foo".data) (".amazonaws.com/".data) = false := by
  refine ⟨by decide, by decide, by decide⟩

/-- C4 (amended): with a configured bucket the raw backend's delete
never fails locally: it always issues a delete request against the
configured bucket.  When the URL contains the CloudFront domain, the key
is `fileUrl.split(cloudFrontDomain + '/')[1]`: for a URL of the form
`pre + cloudFrontDomain + '/' + rest` whose marker occurrence is unique
the key sent is `rest` (the part after the marker), and when the domain
occurs but is never followed by '/', the key is undefined.  Otherwise
the key is `fileUrl.split('.amazonaws.com/')[1] || fileUrl`: for a
unique `.amazonaws.com/` occurrence with a nonempty remainder the key is
that remainder, and when neither marker occurs the whole URL itself is
sent as the delete key — never a delete error.  The managed backend's
delete fails with 'Invalid file URL' exactly when the final path segment
of the URL is empty, and otherwise issues a remove for that final
segment. -/
theorem c4_delete_key_recovery (cfg : S3Config) (url b : String)
    (hb : cfg.bucket ≠ "") :
    (∃ req : S3DeleteRequest,
        deleteFileFromS3 cfg url = .ok req ∧ req.bucket = cfg.bucket) ∧
    (∀ pre rest : String,
      url = pre ++ (cfg.cloudFrontDomain ++ "/") ++ rest →
      onlyMarkerSuffix ((cfg.cloudFrontDomain ++ "/").data)
          ((cfg.cloudFrontDomain ++ "/").data ++ rest.data) url.data = true →
      deleteFileFromS3 cfg url = .ok ⟨cfg.bucket, some rest⟩) ∧
    (containsSub url.data cfg.cloudFrontDomain.data = true →
      containsSub url.data ((cfg.cloudFrontDomain ++ "/").data) = false →
      deleteFileFromS3 cfg url = .ok ⟨cfg.bucket, none⟩) ∧
    (∀ pre rest : String,
      url = pre ++ ".amazonaws.com/" ++ rest →
      containsSub url.data cfg.cloudFrontDomain.data = false →
      rest ≠ "" →
      onlyMarkerSuffix (".amazonaws.com/".data)
          ((".amazonaws.com/".data) ++ rest.data) url.data = true →
      deleteFileFromS3 cfg url = .ok ⟨cfg.bucket, some rest⟩) ∧
    (containsSub url.data cfg.cloudFrontDomain.data = false →
      containsSub url.data (".amazonaws.com/".data) = false →
      deleteFileFromS3 cfg url = .ok ⟨cfg.bucket, some url⟩) ∧
    (deleteFileFromSupabase url b = .error ("Invalid file URL")
      ↔ lastSegment url.data = []) ∧
    (lastSegment url.data ≠ [] →
      deleteFileFromSupabase url b = .ok (b, String.mk (lastSegment url.data))) := by
  refine ⟨?_, ?_, ?_, ?_, ?_, ?_, ?_⟩
  · simp only [deleteFileFromS3, if_neg hb]
    exact ⟨_, rfl, rfl⟩
  · intro pre rest hurl huniq
    have hdata : url.data
        = pre.data ++ (cfg.cloudFrontDomain ++ "/").data ++ rest.data := by
      rw [hurl, String.data_append, String.data_append]
    have hcf : containsSub url.data cfg.cloudFrontDomain.data = true := by
      rw [hdata,
        show (cfg.cloudFrontDomain ++ "/").data
          = cfg.cloudFrontDomain.data ++ ['/'] from rfl,
        List.append_assoc pre.data, List.append_assoc cfg.cloudFrontDomain.data]
      exact containsSub_append_marker _ _ _
    have huniq' := onlyMarkerSuffix_spec ((cfg.cloudFrontDomain ++ "/").data)
      ((cfg.cloudFrontDomain ++ "/").data ++ rest.data) url.data huniq
    rw [hdata] at huniq'
    simp only [deleteFileFromS3, if_neg hb, hcf, if_true]
    rw [hdata, listSplitOn_once ((cfg.cloudFrontDomain ++ "/").data) pre.data rest.data
      (by
        rw [show (cfg.cloudFrontDomain ++ "/").data
            = cfg.cloudFrontDomain.data ++ ['/'] from rfl]
        simp)
      huniq']
    rfl
  · intro hcf hncf
    simp only [deleteFileFromS3, if_neg hb, hcf, if_true]
    rw [listSplitOn_not_contains _ _ hncf]
    rfl
  · intro pre rest hurl hncf hrest huniq
    have hdata : url.data = pre.data ++ (".amazonaws.com/".data) ++ rest.data := by
      rw [hurl, String.data_append, String.data_append]
    have huniq' := onlyMarkerSuffix_spec (".amazonaws.com/".data)
      ((".amazonaws.com/".data) ++ rest.data) url.data huniq
    rw [hdata] at huniq'
    simp only [deleteFileFromS3, if_neg hb, hncf, Bool.false_eq_true, if_false]
    rw [hdata, listSplitOn_once (".amazonaws.com/".data) pre.data rest.data
      (by decide) huniq']
    have hne : rest.data ≠ [] := fun h0 => hrest (String.ext (by rw [h0]))
    simp only [List.getElem?_cons_succ, List.getElem?_cons_zero, Option.getD_some,
      if_neg hne]
  · intro h1 h2
    simp only [deleteFileFromS3, if_neg hb, h1, Bool.false_eq_true, if_false,
      listSplitOn_not_contains _ _ h2]
    rfl
  · by_cases hls : lastSegment url.data = [] <;>
      simp [deleteFileFromSupabase, hls]
  · intro hls
    simp [deleteFileFromSupabase, hls]

/-- C4 witness: concrete instantiations of the amended delete behaviour
— a CloudFront URL stripped to the key after the domain, a bucket-native
URL stripped to the key after `.amazonaws.com/`, and a URL with neither
marker sent whole as the key. -/
theorem c4_delete_key_recovery_witness :
    (deleteFileFromS3 ⟨"us-east-1", "id", "secret", "bkt", "cdn.example.com"⟩
        "https://cdn.example.com/uploads/5-a.png"
      = .ok ⟨"bkt", some "uploads/5-a.png"⟩) ∧
    (deleteFileFromS3 ⟨"us-east-1", "id", "secret", "bkt", "cdn.example.com"⟩
        "https://bkt.s3.us-east-1.amazonaws.com/uploads/6-b.png"
      = .ok ⟨"bkt", some "uploads/6-b.png"⟩) ∧
    (deleteFileFromS3 ⟨"us-east-1", "id", "secret", "bkt", "cdn.example.com"⟩
        "https://rewritten.example/bar"
      = .ok ⟨"bkt", some "https://rewritten.example/bar"⟩) := by
  refine ⟨?_, ?_, ?_⟩
  · exact (c4_delete_key_recovery ⟨"us-east-1", "id", "secret", "bkt", "cdn.example.com"⟩
      "https://cdn.example.com/uploads/5-a.png" "product-images" (by decide)).2.1
      "https://" "uploads/5-a.png" (by decide) (by decide)
  · exact (c4_delete_key_recovery ⟨"us-east-1", "id", "secret", "bkt", "cdn.example.com"⟩
      "https://bkt.s3.us-east-1.amazonaws.com/uploads/6-b.png" "product-images"
      (by decide)).2.2.2.1
      "https://bkt.s3.us-east-1" "uploads/6-b.png" (by decide) (by decide) (by decide)
      (by decide)
  · exact (c4_delete_key_recovery ⟨"us-east-1", "id", "secret", "bkt", "cdn.example.com"⟩
      "https://rewritten.example/bar" "product-images" (by decide)).2.2.2.2.1
      (by decide) (by decide)

/-- C5: the upload size gate accepts any file of at most
`maxSizeMB * 1024 * 1024` bytes (the storage upload is then invoked) and
rejects any strictly larger file with the validation error message,
returning before the storage upload is reached. -/
theorem c5_upload_size_boundary (fileSize maxSizeMB : Nat) :
    (fileSize ≤ maxSizeMB * 1024 * 1024 →
      fileUploadHandleFileSelect fileSize maxSizeMB = .uploaded) ∧
    (maxSizeMB * 1024 * 1024 < fileSize →
      fileUploadHandleFileSelect fileSize maxSizeMB
        = .rejected ("File size must be less than "
            ++ String.mk (natDecimalRepr maxSizeMB) ++ "MB")) := by
  constructor
  · intro h
    simp only [fileUploadHandleFileSelect]
    rw [if_neg (by omega)]
  · intro h
    simp only [fileUploadHandleFileSelect]
    rw [if_pos (by omega)]

/-- C5 witness: with the component's default 50MB limit, a file of
exactly 50MB is uploaded and a file one byte larger is rejected. -/
theorem c5_upload_size_boundary_witness :
    fileUploadHandleFileSelect (50 * 1024 * 1024) 50 = .uploaded ∧
    fileUploadHandleFileSelect (50 * 1024 * 1024 + 1) 50
      = .rejected ("File size must be less than 50MB") := by
  refine ⟨(c5_upload_size_boundary (50 * 1024 * 1024) 50).1 (by omega), ?_⟩
  rw [(c5_upload_size_boundary (50 * 1024 * 1024 + 1) 50).2 (by omega)]
  decide

/-- C9 counterexample: removing a URL that is not in the gallery while
the adapter delete succeeds leaves both sequences unchanged but reports
no error (the error field ends up empty), contradicting the claim that
such a remove reports an error rather than silently succeeding. -/
theorem c9_counterexample :
    ("b" ∉ (["a"] : List String)) ∧
    handleDelete ⟨["a"], [], "old error", some "x"⟩ true (.ok ()) "b" .image
      = ⟨["a"], [], "", none⟩ := by
  refine ⟨by decide, by decide⟩

/-- C9 (amended): a successful adapter delete removes exactly the
entries equal to the URL from the selected kind's sequence and leaves
the other kind's sequence unchanged; a failed adapter delete leaves both
sequences unchanged and stores the error.  Removing an absent URL leaves
both sequences unchanged, but an error is reported only when the adapter
delete itself fails: a successful adapter delete of an absent URL ends
with an empty error field (silent success). -/
theorem c9_gallery_remove (st : GalleryState) (url e : String) (kind : MediaKind) :
    (handleDelete st true (.error e) url kind
      = { st with error := e, deleting := none }) ∧
    (handleDelete st true (.ok ()) url .image
      = { st with images := st.images.filter (fun u => u != url),
                  error := "", deleting := none }) ∧
    (handleDelete st true (.ok ()) url .video
      = { st with videos := st.videos.filter (fun u => u != url),
                  error := "", deleting := none }) ∧
    (∀ x, x ∈ st.images.filter (fun u => u != url) ↔ x ∈ st.images ∧ x ≠ url) ∧
    (url ∉ st.images →
      handleDelete st true (.ok ()) url .image
        = { st with error := "", deleting := none }) ∧
    (url ∉ st.videos →
      handleDelete st true (.ok ()) url .video
        = { st with error := "", deleting := none }) := by
  have hfilter : ∀ l : List String, url ∉ l → l.filter (fun u => u != url) = l := by
    intro l hmem
    refine List.filter_eq_self.mpr fun x hx => ?_
    simp only [bne_iff_ne, ne_eq, decide_eq_true_eq]
    exact fun he => hmem (he ▸ hx)
  refine ⟨rfl, rfl, rfl, ?_, ?_, ?_⟩
  · intro x
    simp [List.mem_filter]
  · intro hmem
    obtain ⟨imgs, vids, err, del⟩ := st
    simp only [handleDelete, Bool.not_true, Bool.false_eq_true, if_false]
    rw [hfilter imgs hmem]
  · intro hmem
    obtain ⟨imgs, vids, err, del⟩ := st
    simp only [handleDelete, Bool.not_true, Bool.false_eq_true, if_false]
    rw [hfilter vids hmem]

/-- C9 witness: a concrete gallery state where deleting an absent URL
with a succeeding adapter delete leaves the lists unchanged and ends
with an empty error. -/
theorem c9_gallery_remove_witness :
    handleDelete ⟨["a"], ["v"], "", none⟩ true (.ok ()) "b" .image
      = ⟨["a"], ["v"], "", none⟩ :=
  (c9_gallery_remove ⟨["a"], ["v"], "", none⟩ "b" "err" .image).2.2.2.2.1 (by decide)

/-- C6: the classifier maps the canonical short YouTube link to the
YouTube variant with the expected identifier and embed URL, and the
canonical Vimeo link to the Vimeo variant with the expected identifier
and embed URL. -/
theorem c6_hosted_classifications :
    parseVideoUrl "https://youtu.be/dQw4w9WgXcQ" =
      ⟨.youtube, "https://youtu.be/dQw4w9WgXcQ",
        some "https://www.youtube.com/embed/dQw4w9WgXcQ?rel=0&modestbranding=1",
        some "dQw4w9WgXcQ"⟩ ∧
    parseVideoUrl "https://vimeo.com/76979871" =
      ⟨.vimeo, "https://vimeo.com/76979871",
        some "https://player.vimeo.com/video/76979871", some "76979871"⟩ := by
  refine ⟨by decide, by decide⟩

/-- C8: classifier totality (the embedding is a total function: there
is no error path): the empty string, a whitespace-only string and
pattern-free garbage classify as the unrecognized variant, whose url is
the trimmed input ('' for empty input); and every input on which all
three patterns fail classifies as unrecognized with the trimmed url and
no other fields. -/
theorem c8_classifier_totality :
    parseVideoUrl "" = ⟨.unknown, "", none, none⟩ ∧
    parseVideoUrl "   " = ⟨.unknown, "", none, none⟩ ∧
    parseVideoUrl "this is not a url" = ⟨.unknown, "this is not a url", none, none⟩ ∧
    ∀ s : String, s ≠ "" →
      reSearch youtubeRE (jsTrim s).data = none →
      reSearch vimeoRE (jsTrim s).data = none →
      reSearch extRE (jsTrim s).data = none →
      parseVideoUrl s = ⟨.unknown, jsTrim s, none, none⟩ := by
  refine ⟨by decide, by decide, by decide, ?_⟩
  intro s hs h1 h2 h3
  simp only [parseVideoUrl, if_neg hs, h1, h2, h3, Option.isSome_none, Bool.false_eq_true,
    if_false]

/-- C8 witness: a concrete garbage input routed through the universal
fallback clause. -/
theorem c8_classifier_totality_witness :
    parseVideoUrl "zzz" = ⟨.unknown, "zzz", none, none⟩ := by
  have h := c8_classifier_totality.2.2.2 "zzz" (by decide) (by decide) (by decide) (by decide)
  rw [h]
  decide

/-- C7: VideoInfo shape invariant: for every input, embedUrl is present
iff the classification is a hosted type (YouTube or Vimeo); videoId is
present iff the classification is a hosted type and the corresponding
pattern search extracted a capture; and the direct-file and unrecognized
variants carry neither embedUrl nor videoId. -/
theorem c7_videoinfo_shape (s : String) :
    ((parseVideoUrl s).embedUrl.isSome = true
      ↔ ((parseVideoUrl s).type = .youtube ∨ (parseVideoUrl s).type = .vimeo)) ∧
    ((parseVideoUrl s).videoId.isSome = true
      ↔ (((parseVideoUrl s).type = .youtube
            ∧ ∃ g, reSearch youtubeRE (jsTrim s).data = some (some g))
          ∨ ((parseVideoUrl s).type = .vimeo
            ∧ ∃ g, reSearch vimeoRE (jsTrim s).data = some (some g)))) ∧
    ((parseVideoUrl s).type = .direct ∨ (parseVideoUrl s).type = .unknown →
      (parseVideoUrl s).embedUrl = none ∧ (parseVideoUrl s).videoId = none) := by
  by_cases hs : s = ""
  · subst hs
    refine ⟨by decide, ?_, by decide⟩
    constructor
    · intro h
      exact absurd h (by decide)
    · intro h
      rcases h with ⟨h, _⟩ | ⟨h, _⟩ <;> exact absurd h (by decide)
  · simp only [parseVideoUrl, if_neg hs]
    rcases hyt : reSearch youtubeRE (jsTrim s).data with _ | g
    · rcases hvm : reSearch vimeoRE (jsTrim s).data with _ | g'
      · by_cases hext : (reSearch extRE (jsTrim s).data).isSome = true
        · simp [hext, hyt, hvm]
        · simp [hext, hyt, hvm]
      · rcases g' with _ | cap <;> simp [hvm]
    · rcases g with _ | cap <;> simp [hyt]

/-- C7 witness: an unrecognized input carries neither embedUrl nor
videoId, via the invariant's third clause. -/
theorem c7_videoinfo_shape_witness :
    (parseVideoUrl "https://example.com/file.txt").embedUrl = none ∧
    (parseVideoUrl "https://example.com/file.txt").videoId = none :=
  (c7_videoinfo_shape "https://example.com/file.txt").2.2 (Or.inr (by decide))

/-! ## Engine lemmas: consumption and captures -/

/-- Matching never lengthens the remaining suffix. -/
theorem mrun_length_le (f : Nat) :
    ∀ (r : RE) (s : List Char), ∀ x ∈ mrun f r s, x.1.length ≤ s.length := by
  induction f with
  | zero => intro r s x hx; simp [mrun] at hx
  | succ f ih =>
    intro r s x hx
    cases r with
    | eps =>
      rw [mrun, List.mem_singleton] at hx
      rw [hx]
    | eos =>
      rw [mrun] at hx
      by_cases he : s.isEmpty
      · rw [if_pos he, List.mem_singleton] at hx
        rw [hx]
      · rw [if_neg he] at hx
        simp at hx
    | cls p =>
      cases s with
      | nil => simp [mrun] at hx
      | cons c rest =>
        rw [mrun] at hx
        by_cases hp : p c = true
        · rw [if_pos hp, List.mem_singleton] at hx
          rw [hx]
          simp
        · rw [if_neg hp] at hx
          simp at hx
    | alt a b =>
      rw [mrun, List.mem_append] at hx
      rcases hx with hx | hx
      · exact ih a s x hx
      · exact ih b s x hx
    | seq a b =>
      rw [mrun] at hx
      simp only [List.mem_flatMap, List.mem_map] at hx
      obtain ⟨r1, hr1, r2, hr2, hx⟩ := hx
      rw [← hx]
      exact le_trans (ih b r1.1 r2 hr2) (ih a s r1 hr1)
    | star a =>
      rw [mrun, List.mem_append] at hx
      rcases hx with hx | hx
      · simp only [List.mem_flatMap, List.mem_map, List.mem_filter] at hx
        obtain ⟨r1, ⟨hr1, _⟩, r2, hr2, hx⟩ := hx
        rw [← hx]
        exact le_trans (ih (.star a) r1.1 r2 hr2) (ih a s r1 hr1)
      · rw [List.mem_singleton] at hx
        rw [hx]
    | group a =>
      rw [mrun] at hx
      simp only [List.mem_map] at hx
      obtain ⟨r1, hr1, hx⟩ := hx
      rw [← hx]
      exact ih a s r1 hr1

/-- A pattern satisfying `consumesOne` consumes at least one character
in every match. -/
theorem mrun_consumesOne (f : Nat) :
    ∀ (r : RE) (s : List Char), consumesOne r = true →
      ∀ x ∈ mrun f r s, x.1.length < s.length := by
  induction f with
  | zero => intro r s _ x hx; simp [mrun] at hx
  | succ f ih =>
    intro r s hr x hx
    cases r with
    | eps => simp [consumesOne] at hr
    | eos => simp [consumesOne] at hr
    | star a => simp [consumesOne] at hr
    | cls p =>
      cases s with
      | nil => simp [mrun] at hx
      | cons c rest =>
        rw [mrun] at hx
        by_cases hp : p c = true
        · rw [if_pos hp, List.mem_singleton] at hx
          rw [hx]
          simp
        · rw [if_neg hp] at hx
          simp at hx
    | alt a b =>
      rw [consumesOne, Bool.and_eq_true] at hr
      rw [mrun, List.mem_append] at hx
      rcases hx with hx | hx
      · exact ih a s hr.1 x hx
      · exact ih b s hr.2 x hx
    | seq a b =>
      rw [consumesOne, Bool.or_eq_true] at hr
      rw [mrun] at hx
      simp only [List.mem_flatMap, List.mem_map] at hx
      obtain ⟨r1, hr1, r2, hr2, hx⟩ := hx
      rw [← hx]
      rcases hr with hr | hr
      · exact lt_of_le_of_lt (mrun_length_le f b r1.1 r2 hr2) (ih a s hr r1 hr1)
      · exact lt_of_lt_of_le (ih b r1.1 hr r2 hr2) (mrun_length_le f a s r1 hr1)
    | group a =>
      rw [consumesOne] at hr
      rw [mrun] at hx
      simp only [List.mem_map] at hx
      obtain ⟨r1, hr1, hx⟩ := hx
      rw [← hx]
      exact ih a s hr r1 hr1

/-- Under `groupsConsume`, every recorded capture is nonempty. -/
theorem mrun_capture_ne_nil (f : Nat) :
    ∀ (r : RE) (s : List Char), groupsConsume r = true →
      ∀ x ∈ mrun f r s, ∀ c, x.2 = some c → c ≠ [] := by
  induction f with
  | zero => intro r s _ x hx; simp [mrun] at hx
  | succ f ih =>
    intro r s hr x hx c hc
    cases r with
    | eps =>
      rw [mrun, List.mem_singleton] at hx
      rw [hx] at hc
      simp at hc
    | eos =>
      rw [mrun] at hx
      by_cases he : s.isEmpty
      · rw [if_pos he, List.mem_singleton] at hx
        rw [hx] at hc
        simp at hc
      · rw [if_neg he] at hx
        simp at hx
    | cls p =>
      cases s with
      | nil => simp [mrun] at hx
      | cons d rest =>
        rw [mrun] at hx
        by_cases hp : p d = true
        · rw [if_pos hp, List.mem_singleton] at hx
          rw [hx] at hc
          simp at hc
        · rw [if_neg hp] at hx
          simp at hx
    | alt a b =>
      rw [groupsConsume, Bool.and_eq_true] at hr
      rw [mrun, List.mem_append] at hx
      rcases hx with hx | hx
      · exact ih a s hr.1 x hx c hc
      · exact ih b s hr.2 x hx c hc
    | seq a b =>
      rw [groupsConsume, Bool.and_eq_true] at hr
      rw [mrun] at hx
      simp only [List.mem_flatMap, List.mem_map] at hx
      obtain ⟨r1, hr1, r2, hr2, hx⟩ := hx
      rw [← hx] at hc
      rcases hm : r2.2 with _ | y
      · rw [show mergeCap r1.2 r2.2 = r1.2 from by rw [hm]; rfl] at hc
        exact ih a s hr.1 r1 hr1 c hc
      · rw [show mergeCap r1.2 r2.2 = some y from by rw [hm]; rfl] at hc
        cases hc
        exact ih b r1.1 hr.2 r2 hr2 c hm
    | star a =>
      rw [groupsConsume] at hr
      rw [mrun, List.mem_append] at hx
      rcases hx with hx | hx
      · simp only [List.mem_flatMap, List.mem_map, List.mem_filter] at hx
        obtain ⟨r1, ⟨hr1, _⟩, r2, hr2, hx⟩ := hx
        rw [← hx] at hc
        rcases hm : r2.2 with _ | y
        · rw [show mergeCap r1.2 r2.2 = r1.2 from by rw [hm]; rfl] at hc
          exact ih a s hr r1 hr1 c hc
        · rw [show mergeCap r1.2 r2.2 = some y from by rw [hm]; rfl] at hc
          cases hc
          exact ih (.star a) r1.1 (by rw [groupsConsume]; exact hr) r2 hr2 c hm
      · rw [List.mem_singleton] at hx
        rw [hx] at hc
        simp at hc
    | group a =>
      rw [groupsConsume, Bool.and_eq_true] at hr
      rw [mrun] at hx
      simp only [List.mem_map] at hx
      obtain ⟨r1, hr1, hx⟩ := hx
      rw [← hx] at hc
      simp only [Option.some_inj] at hc
      have hlt : r1.1.length < s.length := mrun_consumesOne f a s hr.1 r1 hr1
      rw [← hc]
      intro hnil
      rw [List.take_eq_nil_iff] at hnil
      rcases hnil with h0 | h0
      · omega
      · rw [h0] at hlt
        simp at hlt

/-- The first element reported by `head?` is a member. -/
theorem mem_of_head?_eq_some {α : Type} {l : List α} {x : α} (h : l.head? = some x) :
    x ∈ l := by
  cases l with
  | nil => simp at h
  | cons y t =>
    simp only [List.head?_cons, Option.some_inj] at h
    rw [← h]
    exact List.mem_cons_self y t

/-- Any capture reported by the position scan comes from a match of the
pattern against some suffix. -/
theorem searchAux_some (fuel : Nat) (r : RE) :
    ∀ (l : List Char) (g : Option (List Char)), searchAux fuel r l = some g →
      ∃ t x, x ∈ mrun fuel r t ∧ x.2 = g := by
  intro l
  induction l with
  | nil =>
    intro g hg
    rw [searchAux] at hg
    rcases hh : (mrun fuel r []).head? with _ | x
    · rw [hh] at hg
      simp at hg
    · rw [hh] at hg
      simp at hg
      exact ⟨[], x, mem_of_head?_eq_some hh, hg⟩
  | cons c rest ih =>
    intro g hg
    rw [searchAux] at hg
    rcases hh : (mrun fuel r (c :: rest)).head? with _ | x
    · rw [hh] at hg
      exact ih g hg
    · rw [hh] at hg
      simp only [Option.some_inj] at hg
      exact ⟨c :: rest, x, mem_of_head?_eq_some hh, hg⟩

/-- A capture reported by `reSearch` on a `groupsConsume` pattern is a
nonempty character list. -/
theorem reSearch_capture_ne_nil (r : RE) (hr : groupsConsume r = true)
    (l c : List Char) (h : reSearch r l = some (some c)) : c ≠ [] := by
  obtain ⟨t, x, hx, hc⟩ := searchAux_some (reFuel l) r l (some c) h
  exact mrun_capture_ne_nil (reFuel l) r t hr x hx c hc

/-- C10: applied to a classification result, the thumbnail helper
returns `https://img.youtube.com/vi/{videoId}/maxresdefault.jpg` exactly
when the result is the YouTube variant with an extracted videoId, and
null for the Vimeo, direct-file and unrecognized variants (equivalently,
whenever the type is not YouTube or no videoId was extracted). -/
theorem c10_thumbnail (s : String) :
    (∀ vid, (parseVideoUrl s).type = .youtube → (parseVideoUrl s).videoId = some vid →
      getVideoThumbnail (parseVideoUrl s)
        = some ("https://img.youtube.com/vi/" ++ vid ++ "/maxresdefault.jpg")) ∧
    ((parseVideoUrl s).type ≠ .youtube ∨ (parseVideoUrl s).videoId = none →
      getVideoThumbnail (parseVideoUrl s) = none) := by
  by_cases hs : s = ""
  · subst hs
    exact ⟨fun vid h => absurd h (by decide), fun _ => by decide⟩
  · simp only [parseVideoUrl, if_neg hs]
    rcases hyt : reSearch youtubeRE (jsTrim s).data with _ | g
    · rcases hvm : reSearch vimeoRE (jsTrim s).data with _ | g'
      · by_cases hext : (reSearch extRE (jsTrim s).data).isSome = true
        · simp [hext, getVideoThumbnail]
        · simp [hext, getVideoThumbnail]
      · refine ⟨fun vid h => absurd h (by simp), fun _ => ?_⟩
        simp [getVideoThumbnail]
    · refine ⟨fun vid hty hvid => ?_, fun h => ?_⟩
      · rcases g with _ | gl
        · simp at hvid
        · simp only [Option.map_some] at hvid
          have hgl : gl ≠ [] := reSearch_capture_ne_nil youtubeRE rfl _ gl hyt
          have hvid' : String.mk gl = vid := by
            simpa using hvid
          have hne : vid ≠ "" := by
            intro h0
            apply hgl
            have := congrArg String.data (hvid'.trans h0)
            simpa using this
          simp [getVideoThumbnail, hvid', hne]
      · rcases h with h | h
        · simp at h
        · rcases g with _ | gl
          · simp [getVideoThumbnail]
          · simp at h

/-- C10 witness: the canonical YouTube link yields its maxresdefault
thumbnail URL through the classifier. -/
theorem c10_thumbnail_witness :
    getVideoThumbnail (parseVideoUrl "https://youtu.be/dQw4w9WgXcQ")
      = some "https://img.youtube.com/vi/dQw4w9WgXcQ/maxresdefault.jpg" := by
  have h := (c10_thumbnail "https://youtu.be/dQw4w9WgXcQ").1 "dQw4w9WgXcQ"
    (by decide) (by decide)
  rw [h]
  decide

/-! ## Engine head lemmas, used for the extension-pattern claim -/

/-- Heads survive list append. -/
theorem head?_append_some {α : Type} {l₁ l₂ : List α} {x : α} (h : l₁.head? = some x) :
    (l₁ ++ l₂).head? = some x := by
  cases l₁ with
  | nil => simp at h
  | cons y t =>
    simp only [List.head?_cons, Option.some_inj] at h
    rw [List.cons_append, List.head?_cons, h]

/-- Heads commute with map. -/
theorem head?_map_some {α β : Type} {l : List α} {x : α} (f : α → β)
    (h : l.head? = some x) : (l.map f).head? = some (f x) := by
  cases l with
  | nil => simp at h
  | cons y t =>
    simp only [List.head?_cons, Option.some_inj] at h
    rw [List.map_cons, List.head?_cons, h]

/-- A character class fails on empty input at any fuel. -/
theorem mrun_cls_nil (f : Nat) (p : Char → Bool) : mrun f (.cls p) [] = [] := by
  cases f <;> rfl

/-- A satisfied character class consumes exactly one character. -/
theorem mrun_cls_cons (f : Nat) (p : Char → Bool) (c : Char) (l : List Char)
    (h : p c = true) : mrun (f + 1) (.cls p) (c :: l) = [(l, none)] := by
  rw [mrun, if_pos h]

/-- A failed character class yields no match. -/
theorem mrun_cls_cons_fail (f : Nat) (p : Char → Bool) (c : Char) (l : List Char)
    (h : p c = false) : mrun f (.cls p) (c :: l) = [] := by
  cases f with
  | zero => rfl
  | succ f => rw [mrun, if_neg (by simp [h])]

/-- The `eps` run is a singleton. -/
theorem mrun_eps (f : Nat) (s : List Char) : mrun (f + 1) .eps s = [(s, none)] := rfl

/-- The `eos` run at the end of input. -/
theorem mrun_eos_nil (f : Nat) : mrun (f + 1) .eos ([] : List Char) = [([], none)] := rfl

/-- Head of a sequence run, from the heads of its parts. -/
theorem mrun_seq_head (f : Nat) (a b : RE) (s : List Char)
    (x y : List Char × Option (List Char))
    (ha : (mrun f a s).head? = some x)
    (hb : (mrun f b x.1).head? = some y) :
    (mrun (f + 1) (.seq a b) s).head? = some (y.1, mergeCap x.2 y.2) := by
  rw [mrun]
  rcases hl : mrun f a s with _ | ⟨x', t⟩
  · rw [hl] at ha
    simp at ha
  · rw [hl] at ha
    simp only [List.head?_cons, Option.some_inj] at ha
    subst ha
    rw [List.flatMap_cons]
    exact head?_append_some (head?_map_some _ hb)

/-- A sequence whose first part fails yields no match. -/
theorem mrun_seq_left_empty (f : Nat) (a b : RE) (s : List Char)
    (h : mrun f a s = []) : mrun (f + 1) (.seq a b) s = [] := by
  rw [mrun, h]
  rfl

/-- Left-branch head of an alternation. -/
theorem mrun_alt_head_left (f : Nat) (a b : RE) (s : List Char)
    (x : List Char × Option (List Char)) (h : (mrun f a s).head? = some x) :
    (mrun (f + 1) (.alt a b) s).head? = some x := by
  rw [mrun]
  exact head?_append_some h

/-- An alternation whose left branch fails reduces to its right branch. -/
theorem mrun_alt_left_empty (f : Nat) (a b : RE) (s : List Char)
    (h : mrun f a s = []) : mrun (f + 1) (.alt a b) s = mrun f b s := by
  rw [mrun, h, List.nil_append]

/-- Head of a group run. -/
theorem mrun_group_head (f : Nat) (a : RE) (s : List Char)
    (x : List Char × Option (List Char)) (h : (mrun f a s).head? = some x) :
    (mrun (f + 1) (.group a) s).head?
      = some (x.1, some (s.take (s.length - x.1.length))) := by
  rw [mrun]
  exact head?_map_some _ h

/-- A star over a class accepting every character of the input greedily
consumes the whole input first. -/
theorem mrun_star_all (p : Char → Bool) :
    ∀ (l : List Char) (f : Nat), l.length + 1 ≤ f → (∀ c ∈ l, p c = true) →
      (mrun f (.star (.cls p)) l).head? = some ([], none) := by
  intro l
  induction l with
  | nil =>
    intro f hf _
    obtain ⟨f', rfl⟩ : ∃ f', f = f' + 1 := ⟨f - 1, by omega⟩
    rw [mrun, mrun_cls_nil]
    rfl
  | cons c l' ih =>
    intro f hf hall
    obtain ⟨f', rfl⟩ : ∃ f', f = f' + 1 := ⟨f - 1, by omega⟩
    have hf' : l'.length + 1 ≤ f' := by simp at hf; omega
    obtain ⟨f'', rfl⟩ : ∃ f'', f' = f'' + 1 := ⟨f' - 1, by omega⟩
    rw [mrun, mrun_cls_cons _ _ _ _ (hall c (List.mem_cons_self c l'))]
    rw [show ([((l', none) : List Char × Option (List Char))].filter
          fun r => r.1.length < (c :: l').length)
        = [(l', none)] from by simp]
    rw [List.flatMap_cons]
    have hih := ih (f'' + 1) hf' (fun d hd => hall d (List.mem_cons_of_mem c hd))
    exact head?_append_some (head?_append_some (head?_map_some _ hih))

/-- A case-insensitively matching literal consumes exactly its input
prefix. -/
theorem mrun_litStrCI_ok :
    ∀ (p inp : List Char), ciEqList p inp = true →
      ∀ (l : List Char) (f : Nat), p.length + 1 ≤ f →
        mrun f (litStrCI p) (inp ++ l) = [(l, none)] := by
  intro p
  induction p with
  | nil =>
    intro inp hci l f hf
    cases inp with
    | cons b bs => simp [ciEqList] at hci
    | nil =>
      obtain ⟨f', rfl⟩ : ∃ f', f = f' + 1 := ⟨f - 1, by omega⟩
      rw [List.nil_append]
      exact mrun_eps f' l
  | cons c p' ih =>
    intro inp hci l f hf
    cases inp with
    | nil => simp [ciEqList] at hci
    | cons d inp' =>
      rw [ciEqList, Bool.and_eq_true] at hci
      rw [List.length_cons] at hf
      obtain ⟨f', rfl⟩ : ∃ f', f = f' + 1 := ⟨f - 1, by omega⟩
      obtain ⟨f'', rfl⟩ : ∃ f'', f' = f'' + 1 := ⟨f' - 1, by omega⟩
      have h1 : upperAscii c = upperAscii d := by simpa [ciEq] using hci.1
      show mrun (f'' + 1 + 1) (.seq (litCI c) (litStrCI p')) ((d :: inp') ++ l) = _
      rw [mrun, List.cons_append,
        show mrun (f'' + 1) (litCI c) (d :: (inp' ++ l)) = [(inp' ++ l, none)] from
          mrun_cls_cons f'' _ d _ (by simp [h1]),
        List.flatMap_cons]
      simp only [List.flatMap_nil, List.append_nil]
      rw [ih inp' hci.2 l (f'' + 1) (by omega)]
      rfl

/-- A case-insensitive literal fails immediately on a first-character
mismatch. -/
theorem mrun_litStrCI_fail1 (c : Char) (p' : List Char) (d : Char) (l : List Char)
    (h : ciEq c d = false) : ∀ f, mrun f (litStrCI (c :: p')) (d :: l) = [] := by
  intro f
  cases f with
  | zero => rfl
  | succ f' =>
    show mrun (f' + 1) (.seq (litCI c) (litStrCI p')) (d :: l) = []
    refine mrun_seq_left_empty f' _ _ _ ?_
    refine mrun_cls_cons_fail f' _ d l ?_
    have h1 : upperAscii c ≠ upperAscii d := by simpa [ciEq] using h
    simp only [beq_eq_false_iff_ne, ne_eq]
    exact fun he => h1 he.symm

/-- A case-insensitive literal fails on a second-character mismatch. -/
theorem mrun_litStrCI_fail2 (c1 c2 : Char) (p'' : List Char) (d1 d2 : Char)
    (l : List Char) (h1 : ciEq c1 d1 = true) (h2 : ciEq c2 d2 = false) :
    ∀ f, mrun f (litStrCI (c1 :: c2 :: p'')) (d1 :: d2 :: l) = [] := by
  intro f
  cases f with
  | zero => rfl
  | succ f' =>
    show mrun (f' + 1) (.seq (litCI c1) (litStrCI (c2 :: p''))) (d1 :: d2 :: l) = []
    cases f' with
    | zero => rfl
    | succ f'' =>
      have hu : upperAscii c1 = upperAscii d1 := by simpa [ciEq] using h1
      rw [mrun,
        show mrun (f'' + 1) (litCI c1) (d1 :: (d2 :: l)) = [(d2 :: l, none)] from
          mrun_cls_cons f'' _ d1 _ (by simp [hu]),
        List.flatMap_cons]
      simp only [List.flatMap_nil, List.append_nil]
      rw [mrun_litStrCI_fail1 c2 p'' d2 l h2 (f'' + 1)]
      rfl

/-- Head of the four-way extension alternation on an input whose prefix
case-insensitively matches one of the four extensions. -/
theorem extAlt_head (p e q : List Char)
    (hp : p = ("mp4".data) ∨ p = ("webm".data) ∨ p = ("ogg".data) ∨ p = ("mov".data))
    (hci : ciEqList p e = true) :
    ∀ f, 9 ≤ f →
      (mrun f (.alt (litStrCI ("mp4".data))
          (.alt (litStrCI ("webm".data))
            (.alt (litStrCI ("ogg".data)) (litStrCI ("mov".data))))) (e ++ q)).head?
        = some (q, none) := by
  intro f hf
  obtain ⟨f1, rfl⟩ : ∃ f1, f = f1 + 1 := ⟨f - 1, by omega⟩
  rcases hp with rfl | rfl | rfl | rfl
  · rw [mrun, mrun_litStrCI_ok _ e hci q f1
      (by have h3 : ("mp4".data).length = 3 := rfl; omega)]
    rfl
  · obtain ⟨d1, e', rfl⟩ : ∃ d1 e', e = d1 :: e' := by
      cases e with
      | nil => simp [ciEqList] at hci
      | cons d1 e' => exact ⟨d1, e', rfl⟩
    have hw : upperAscii 'w' = upperAscii d1 := by
      rw [ciEqList, Bool.and_eq_true] at hci
      simpa [ciEq] using hci.1
    rw [mrun, List.cons_append,
      mrun_litStrCI_fail1 'm' _ d1 _ (by simp [ciEq, ← hw]; decide) f1,
      List.nil_append]
    obtain ⟨f2, rfl⟩ : ∃ f2, f1 = f2 + 1 := ⟨f1 - 1, by omega⟩
    rw [mrun, show d1 :: (e' ++ q) = (d1 :: e') ++ q from rfl,
      mrun_litStrCI_ok _ _ hci q f2
        (by have h4 : ("webm".data).length = 4 := rfl; omega)]
    rfl
  · obtain ⟨d1, e', rfl⟩ : ∃ d1 e', e = d1 :: e' := by
      cases e with
      | nil => simp [ciEqList] at hci
      | cons d1 e' => exact ⟨d1, e', rfl⟩
    have hw : upperAscii 'o' = upperAscii d1 := by
      rw [ciEqList, Bool.and_eq_true] at hci
      simpa [ciEq] using hci.1
    rw [mrun, List.cons_append,
      mrun_litStrCI_fail1 'm' _ d1 _ (by simp [ciEq, ← hw]; decide) f1,
      List.nil_append]
    obtain ⟨f2, rfl⟩ : ∃ f2, f1 = f2 + 1 := ⟨f1 - 1, by omega⟩
    rw [mrun,
      mrun_litStrCI_fail1 'w' _ d1 _ (by simp [ciEq, ← hw]; decide) f2,
      List.nil_append]
    obtain ⟨f3, rfl⟩ : ∃ f3, f2 = f3 + 1 := ⟨f2 - 1, by omega⟩
    rw [mrun, show d1 :: (e' ++ q) = (d1 :: e') ++ q from rfl,
      mrun_litStrCI_ok _ _ hci q f3
        (by have h3 : ("ogg".data).length = 3 := rfl; omega)]
    rfl
  · obtain ⟨d1, d2, e'', rfl⟩ : ∃ d1 d2 e'', e = d1 :: d2 :: e'' := by
      cases e with
      | nil => simp [ciEqList] at hci
      | cons d1 e' =>
        cases e' with
        | nil => simp [ciEqList] at hci
        | cons d2 e'' => exact ⟨d1, d2, e'', rfl⟩
    have hm : upperAscii 'm' = upperAscii d1 := by
      rw [ciEqList, Bool.and_eq_true] at hci
      simpa [ciEq] using hci.1
    have ho : upperAscii 'o' = upperAscii d2 := by
      rw [ciEqList, Bool.and_eq_true] at hci
      rw [ciEqList, Bool.and_eq_true] at hci
      simpa [ciEq] using hci.2.1
    rw [mrun, List.cons_append, List.cons_append,
      mrun_litStrCI_fail2 'm' 'p' _ d1 d2 _ (by simp [ciEq, ← hm])
        (by simp [ciEq, ← ho]; decide) f1,
      List.nil_append]
    obtain ⟨f2, rfl⟩ : ∃ f2, f1 = f2 + 1 := ⟨f1 - 1, by omega⟩
    rw [mrun,
      mrun_litStrCI_fail1 'w' _ d1 _ (by simp [ciEq, ← hm]; decide) f2,
      List.nil_append]
    obtain ⟨f3, rfl⟩ : ∃ f3, f2 = f3 + 1 := ⟨f2 - 1, by omega⟩
    rw [mrun,
      mrun_litStrCI_fail1 'o' _ d1 _ (by simp [ciEq, ← hm]; decide) f3,
      List.nil_append]
    rw [show d1 :: d2 :: (e'' ++ q) = (d1 :: d2 :: e'') ++ q from rfl,
      mrun_litStrCI_ok _ _ hci q f3
        (by have h3 : ("mov".data).length = 3 := rfl; omega)]
    rfl

/-- Head of the query-plus-anchor tail `(\?.*)?$` of the extension
pattern, on an empty or well-formed query string. -/
theorem extTail_head (q : List Char)
    (hq : q = [] ∨ ∃ q', q = '?' :: q' ∧ ∀ c ∈ q', jsDot c = true) :
    ∀ f, q.length + 4 ≤ f →
      (mrun f (.seq (reOpt (.seq (lit '?') (.star (.cls jsDot)))) .eos) q).head?
        = some ([], none) := by
  intro f hf
  obtain ⟨f1, rfl⟩ : ∃ f1, f = f1 + 1 := ⟨f - 1, by omega⟩
  obtain ⟨f2, rfl⟩ : ∃ f2, f1 = f2 + 1 := ⟨f1 - 1, by omega⟩
  rcases hq with rfl | ⟨q', rfl, hdots⟩
  · have hseqfail : mrun f2 (.seq (lit '?') (.star (.cls jsDot))) [] = [] := by
      cases f2 with
      | zero => rfl
      | succ f3 => exact mrun_seq_left_empty f3 _ _ _ (mrun_cls_nil f3 _)
    have hopt : (mrun (f2 + 1) (reOpt (.seq (lit '?') (.star (.cls jsDot))))
        ([] : List Char)).head? = some ([], none) := by
      rw [show reOpt (.seq (lit '?') (.star (.cls jsDot)))
            = .alt (.seq (lit '?') (.star (.cls jsDot))) .eps from rfl,
        mrun_alt_left_empty f2 _ _ _ hseqfail]
      obtain ⟨f3, rfl⟩ : ∃ f3, f2 = f3 + 1 := ⟨f2 - 1, by omega⟩
      rw [mrun_eps]
      rfl
    have heos : (mrun (f2 + 1) RE.eos ([] : List Char)).head? = some ([], none) := by
      rw [mrun_eos_nil]
      rfl
    have h := mrun_seq_head (f2 + 1) _ .eos [] ([], none) ([], none) hopt heos
    simpa using h
  · rw [List.length_cons] at hf
    obtain ⟨f3, rfl⟩ : ∃ f3, f2 = f3 + 1 := ⟨f2 - 1, by omega⟩
    obtain ⟨f4, rfl⟩ : ∃ f4, f3 = f4 + 1 := ⟨f3 - 1, by omega⟩
    have hX : (mrun (f4 + 1 + 1) (.seq (lit '?') (.star (.cls jsDot)))
        ('?' :: q')).head? = some ([], none) := by
      have ha : (mrun (f4 + 1) (lit '?') ('?' :: q')).head? = some (q', none) := by
        rw [show lit '?' = RE.cls (fun d => d == '?') from rfl,
          mrun_cls_cons f4 _ _ _ (by simp)]
        rfl
      have hb : (mrun (f4 + 1) (.star (.cls jsDot)) q').head? = some ([], none) :=
        mrun_star_all jsDot q' (f4 + 1) (by omega) hdots
      have h := mrun_seq_head (f4 + 1) _ _ _ (q', none) ([], none) ha hb
      simpa using h
    have hopt : (mrun (f4 + 1 + 1 + 1) (reOpt (.seq (lit '?') (.star (.cls jsDot))))
        ('?' :: q')).head? = some ([], none) := by
      rw [show reOpt (.seq (lit '?') (.star (.cls jsDot)))
            = .alt (.seq (lit '?') (.star (.cls jsDot))) .eps from rfl]
      exact mrun_alt_head_left (f4 + 1 + 1) _ _ _ ([], none) hX
    have heos : (mrun (f4 + 1 + 1 + 1) RE.eos ([] : List Char)).head?
        = some ([], none) := by
      rw [mrun_eos_nil]
      rfl
    have h := mrun_seq_head (f4 + 1 + 1 + 1) _ .eos ('?' :: q') ([], none) ([], none)
      hopt heos
    simpa using h

/-- Head of the full extension pattern on a dot, extension and query. -/
theorem extRE_head (p e q : List Char)
    (hp : p = ("mp4".data) ∨ p = ("webm".data) ∨ p = ("ogg".data) ∨ p = ("mov".data))
    (hci : ciEqList p e = true)
    (hq : q = [] ∨ ∃ q', q = '?' :: q' ∧ ∀ c ∈ q', jsDot c = true) :
    ∀ f, (e ++ q).length + 14 ≤ f →
      ∃ x, (mrun f extRE ('.' :: (e ++ q))).head? = some x := by
  intro f hf
  obtain ⟨f1, rfl⟩ : ∃ f1, f = f1 + 1 := ⟨f - 1, by omega⟩
  obtain ⟨f2, rfl⟩ : ∃ f2, f1 = f2 + 1 := ⟨f1 - 1, by omega⟩
  obtain ⟨f3, rfl⟩ : ∃ f3, f2 = f3 + 1 := ⟨f2 - 1, by omega⟩
  have hq_le : q.length ≤ (e ++ q).length := by
    rw [List.length_append]
    omega
  have hdot : (mrun (f3 + 1 + 1) (lit '.') ('.' :: (e ++ q))).head?
      = some (e ++ q, none) := by
    rw [show lit '.' = RE.cls (fun d => d == '.') from rfl,
      mrun_cls_cons (f3 + 1) _ _ _ (by simp)]
    rfl
  have halt := extAlt_head p e q hp hci f3 (by omega)
  have hgroup := mrun_group_head f3 _ (e ++ q) (q, none) halt
  have htail := extTail_head q hq (f3 + 1) (by omega)
  have hrest := mrun_seq_head (f3 + 1) _ _ (e ++ q)
    (q, some ((e ++ q).take ((e ++ q).length - q.length))) ([], none) hgroup htail
  have houter := mrun_seq_head (f3 + 1 + 1) (lit '.') _ ('.' :: (e ++ q))
    (e ++ q, none) _ hdot hrest
  exact ⟨_, houter⟩

/-- If the pattern matches at some position, the position scan reports a
match. -/
theorem searchAux_isSome_of_suffix (fuel : Nat) (r : RE)
    (x : List Char × Option (List Char)) :
    ∀ (pre t : List Char), (mrun fuel r t).head? = some x →
      (searchAux fuel r (pre ++ t)).isSome = true := by
  intro pre
  induction pre with
  | nil =>
    intro t ht
    rw [List.nil_append]
    cases t with
    | nil =>
      rw [searchAux, ht]
      rfl
    | cons c t' =>
      rw [searchAux, ht]
      rfl
  | cons d pre' ih =>
    intro t ht
    rw [List.cons_append, searchAux]
    cases hh : (mrun fuel r (d :: (pre' ++ t))).head? with
    | some y => rfl
    | none => simpa using ih t ht

/-- C2 counterexample: the string "https://youtu.be/abcdefghijk.mp4"
ends with ".mp4" (with no query string), yet classify returns the
YouTube variant, not direct-file: the hosted-platform patterns are tried
first and take precedence. -/
theorem c2_counterexample :
    "https://youtu.be/abcdefghijk.mp4"
      = "https://youtu.be/abcdefghijk" ++ ".mp4" ∧
    (parseVideoUrl "https://youtu.be/abcdefghijk.mp4").type = .youtube ∧
    (parseVideoUrl "https://youtu.be/abcdefghijk.mp4").type ≠ .direct := by
  refine ⟨by decide, by decide, by decide⟩

/-- C2 (amended): for every string whose trimmed form ends with a dot,
one of the extensions mp4, webm, ogg, mov up to ASCII case, and an
optional query string ('?' followed by non-line-terminator characters),
classify returns the direct-file variant carrying the trimmed URL —
provided the trimmed string matches neither the YouTube nor the Vimeo
pattern, which are tried first and take precedence. -/
theorem c2_direct_file (u : String) (s p e q : List Char)
    (hu : (jsTrim u).data = s ++ '.' :: (e ++ q))
    (hp : p = ("mp4".data) ∨ p = ("webm".data) ∨ p = ("ogg".data) ∨ p = ("mov".data))
    (hci : ciEqList p e = true)
    (hq : q = [] ∨ ∃ q', q = '?' :: q' ∧ ∀ c ∈ q', jsDot c = true)
    (hyt : reSearch youtubeRE (jsTrim u).data = none)
    (hvm : reSearch vimeoRE (jsTrim u).data = none) :
    parseVideoUrl u = ⟨.direct, jsTrim u, none, none⟩ := by
  have hne : u ≠ "" := by
    intro h0
    subst h0
    rw [show (jsTrim "").data = [] from rfl] at hu
    have := congrArg List.length hu
    simp at this
    omega
  have hlen : (jsTrim u).data.length = s.length + ((e ++ q).length + 1) := by
    rw [hu]
    simp [List.length_append]
  have hfuel : (e ++ q).length + 14 ≤ reFuel (jsTrim u).data := by
    show (e ++ q).length + 14 ≤ 64 * ((jsTrim u).data.length + 1)
    rw [hlen]
    omega
  obtain ⟨x, hx⟩ := extRE_head p e q hp hci hq (reFuel (jsTrim u).data) hfuel
  have hsearch := searchAux_isSome_of_suffix (reFuel (jsTrim u).data) extRE x
    s ('.' :: (e ++ q)) hx
  rw [← hu] at hsearch
  have hext : (reSearch extRE (jsTrim u).data).isSome = true := hsearch
  simp only [parseVideoUrl, if_neg hne, hyt, hvm, hext, if_true]

/-- C2 witness: a direct-file URL with an upper-noise-free extension and
query string routed through the amended theorem. -/
theorem c2_direct_file_witness :
    parseVideoUrl "https://cdn.example.com/clip.mp4?x=1"
      = ⟨.direct, "https://cdn.example.com/clip.mp4?x=1", none, none⟩ := by
  have h := c2_direct_file "https://cdn.example.com/clip.mp4?x=1"
    ("https://cdn.example.com/clip".data) ("mp4".data) ("mp4".data) ("?x=1".data)
    (by decide) (Or.inl rfl) (by decide)
    (Or.inr ⟨("x=1".data), by decide, by decide⟩) (by decide) (by decide)
  rw [h]
  decide

end Portal
